import Mathlib

/-!
Shallow embedding of the core conversion pipeline of `site_to_md`
(`site_to_md/converter.py`), together with the auxiliary copy
`site_to_md/site_to_md/converter.py` where it differs, and proofs
checking the specification's claims about that code.

Strings are modelled through their character lists (`String.data`);
the Python string operations used by the source (`startswith`, `rstrip`,
`lstrip`, `strip`, `split`, `endswith`, `re.sub` with the four concrete
patterns appearing in the source) are embedded as explicit recursive
functions over `List Char`, faithful to CPython semantics on ASCII text.
-/

/-- Python `\s` (whitespace class), restricted to ASCII: space, tab,
newline, carriage return, vertical tab, form feed. -/
def isSpaceChar (c : Char) : Bool :=
  c = ' ' || c = '\t' || c = '\n' || c = '\r' || c = '\x0b' || c = '\x0c'

/-- Python regex `\w` (word character), restricted to ASCII:
letters, digits and underscore. -/
def isWordChar (c : Char) : Bool :=
  c.isAlphanum || c = '_'

/-- `listStarts p l`: the list `l` starts with the pattern `p`
(the prefix test underlying Python `str.startswith` and literal
regex fragments). -/
def listStarts : List Char → List Char → Bool
  | [], _ => true
  | _ :: _, [] => false
  | p :: ps, c :: cs => p = c && listStarts ps cs

/-- Python `str.split(sep)` for a one-character separator `sep`:
splits into the (possibly empty) segments between occurrences of `sep`. -/
def splitOnChar (sep : Char) : List Char → List (List Char)
  | [] => [[]]
  | c :: rest =>
    if c = sep then [] :: splitOnChar sep rest
    else
      match splitOnChar sep rest with
      | [] => [[c]]
      | p :: ps => (c :: p) :: ps

/-- Python `s.startswith(p)`. -/
def pyStartsWith (s p : String) : Bool :=
  listStarts p.data s.data

/-- Python `s.rstrip('/')`: remove all trailing slashes. -/
def rstripSlash (s : String) : String :=
  String.mk ((s.data.reverse.dropWhile (fun c => c = '/')).reverse)

/-- Python `s.lstrip('/')`: remove all leading slashes. -/
def lstripSlash (s : String) : String :=
  String.mk (s.data.dropWhile (fun c => c = '/'))

/-- Python `s.strip('/')`: remove leading and trailing slashes. -/
def stripSlash (s : String) : String :=
  String.mk (((s.data.dropWhile (fun c => c = '/')).reverse.dropWhile
    (fun c => c = '/')).reverse)

/-- Python `s.rstrip('.')`: remove all trailing dots. -/
def rstripDot (s : String) : String :=
  String.mk ((s.data.reverse.dropWhile (fun c => c = '.')).reverse)

/-- Python `s.endswith('.md')`, on character lists. -/
def endsWithMd (l : List Char) : Bool :=
  decide (l.reverse.take 3 = ['d', 'm', '.'])

/-!
### The post-processing pass (`html_to_markdown`, lines 167-173)

The renderer output is cleaned by four successive `re.sub` calls.  Each is
embedded by a generic fuelled left-to-right scan `scanSub`: at every
position the fixed pattern is tried; on a match the replacement is
emitted and scanning resumes after the matched text (Python `re.sub`
semantics: leftmost, non-overlapping matches, replacement not rescanned).
Fuel equal to the text length always suffices because every step of the
scan consumes at least one character.
-/

/-- One generic scanning pass: `step l` returns `some (rep, rest)` when the
pattern matches at the head of `l`, where `rep` is the replacement text and
`rest` the remainder of `l` after the matched text. -/
def scanSub (step : List Char → Option (List Char × List Char)) :
    Nat → List Char → List Char
  | 0, l => l
  | _ + 1, [] => []
  | fuel + 1, c :: cs =>
    match step (c :: cs) with
    | some (rep, rest) => rep ++ scanSub step fuel rest
    | none => c :: scanSub step fuel cs

/-- Matcher for `re.sub(r'\[code\]\s*', '', ·)`: the literal `[code]`
followed by the maximal run of whitespace, replaced by nothing. -/
def stepCodeOpen (l : List Char) : Option (List Char × List Char) :=
  if listStarts "[code]".data l then
    some ([], (l.drop 6).dropWhile isSpaceChar)
  else none

/-- Matcher for `re.sub(r'\s*\[/code\]', '', ·)`: a (possibly empty) run of
whitespace followed by the literal `[/code]`, replaced by nothing.  A match
starting at a position consumes exactly the whitespace run up to the
literal, as the greedy engine does (shorter runs would leave a whitespace
character where `[` is required). -/
def stepCodeClose (l : List Char) : Option (List Char × List Char) :=
  if listStarts "[/code]".data (l.dropWhile isSpaceChar) then
    some ([], (l.dropWhile isSpaceChar).drop 7)
  else none

/-- Matcher for `re.sub(r'```(\w*)\n\n', '```\1\n', ·)`: an opening fence,
a greedy language word, then a blank line; the blank line is dropped and
the fence and word are kept (a shorter word cannot match, as it would put
a word character where `\n` is required). -/
def stepFenceOpen (l : List Char) : Option (List Char × List Char) :=
  if listStarts "```".data l then
    if listStarts "\n\n".data (l.drop (3 + ((l.drop 3).takeWhile isWordChar).length)) then
      some ('`' :: '`' :: '`' :: (((l.drop 3).takeWhile isWordChar) ++ ['\n']),
        (l.drop (3 + ((l.drop 3).takeWhile isWordChar).length)).drop 2)
    else none
  else none

/-- Matcher for `re.sub(r'\n\n```', '\n```', ·)`: a blank line immediately
before a closing fence is dropped. -/
def stepFenceClose (l : List Char) : Option (List Char × List Char) :=
  if listStarts "\n\n```".data l then
    some ('\n' :: '`' :: '`' :: '`' :: [], l.drop 5)
  else none

/-- One full pass of a single substitution over a text. -/
def runSub (step : List Char → Option (List Char × List Char))
    (l : List Char) : List Char :=
  scanSub step l.length l

/-- The post-processing cleanup of `html_to_markdown` (lines 167-173):
strip `[code]` markers, strip `[/code]` markers, collapse a blank line
after an opening fence-plus-language, collapse a blank line before a
closing fence — in that fixed order. -/
def postProcess (s : String) : String :=
  String.mk (runSub stepFenceClose (runSub stepFenceOpen
    (runSub stepCodeClose (runSub stepCodeOpen s.data))))

/-!
### The content tree

`ElementNode` of the spec: BeautifulSoup's parsed tree is embedded as a
tree of element nodes (tag, attribute list, ordered children) and text
nodes.  Attributes are an association list with unique keys (a dict in
bs4); the `class` attribute is kept as its raw string and split on
spaces where the source reads `code.get('class')`.
-/

inductive Node where
  | text (s : String)
  | elem (tag : String) (attrs : List (String × String)) (children : List Node)
deriving Repr

/-- `tag.has_attr(k)` / `tag[k]` read: first value bound to key `k`
(keys are unique in a bs4 attribute dict). -/
def getAttr : List (String × String) → String → Option String
  | [], _ => none
  | p :: rest, k => if p.1 = k then some p.2 else getAttr rest k

/-- `tag[k] = v` write: update the value bound to key `k`. -/
def setAttr (attrs : List (String × String)) (k v : String) :
    List (String × String) :=
  attrs.map (fun p => if p.1 = k then (p.1, v) else p)

/-- `ConversionConfig` (converter.py lines 24-37); the listed defaults are
those filled in by `__post_init__`. -/
structure ConversionConfig where
  remove_elements : List String := ["script", "style", "nav", "footer", "iframe", "aside"]
  body_width : Nat := 0
  code_language_classes : List String := ["language-", "lang-"]
  base_url : Option String := none

/-!
### Element removal (`clean_html` lines 93-95)

`for element in soup.find_all(remove_elements): element.decompose()`
removes every element whose tag is in the configured list together with
its whole subtree.  Embedded as a filter returning `none` for a removed
element; children of kept elements are filtered recursively (decomposing
an element also discards its descendants, so nothing below a removed
element survives).
-/

mutual

def removeElemsNode (remove : List String) : Node → Option Node
  | .text s => some (.text s)
  | .elem tag attrs cs =>
    if tag ∈ remove then none
    else some (.elem tag attrs (removeElemsList remove cs))

def removeElemsList (remove : List String) : List Node → List Node
  | [] => []
  | c :: cs =>
    match removeElemsNode remove c with
    | some c2 => c2 :: removeElemsList remove cs
    | none => removeElemsList remove cs

end

/-!
### Code block normalization (`_process_code_blocks`, lines 107-129)
-/

/-- `cls.split('-')[1]` (line 122).  In the source the index is only
evaluated for a class that starts with a configured prefix, and every
default prefix contains `-`, so part 1 exists; the out-of-range case is
embedded as the empty string. -/
def splitDashIdx1 (cls : String) : String :=
  String.mk (((splitOnChar '-' cls.data).drop 1).headD [])

/-- The language-scanning loop (lines 118-123): walk the code element's
class list in order; the first class that starts with any configured
prefix (`any(cls.startswith(prefix) for prefix in code_language_classes)`)
supplies the language via `cls.split('-')[1]`; no match leaves `''`. -/
def languageOf (prefixes : List String) (classes : List String) : String :=
  match classes.find? (fun cls => prefixes.any (fun p => pyStartsWith cls p)) with
  | some cls => splitDashIdx1 cls
  | none => ""

/-- `code.get('class', [])`: bs4 parses the `class` attribute as a
space-separated multi-valued attribute; a missing attribute gives `[]`. -/
def classesOf (attrs : List (String × String)) : List String :=
  match getAttr attrs "class" with
  | some s => ((splitOnChar ' ' s.data).filter (fun p => p ≠ [])).map String.mk
  | none => []

mutual

/-- `element.get_text()`: concatenation of all text descendants in order. -/
def getTextNode : Node → String
  | .text s => s
  | .elem _ _ cs => getTextList cs

def getTextList : List Node → String
  | [] => ""
  | c :: cs => getTextNode c ++ getTextList cs

end

mutual

/-- `pre.find('code')` searches the descendants in document order and
returns the first element whose tag is `code`. -/
def findCodeNode : Node → Option Node
  | .text _ => none
  | .elem tag attrs cs =>
    if tag = "code" then some (.elem tag attrs cs)
    else findCodeList cs

def findCodeList : List Node → Option Node
  | [] => none
  | c :: cs =>
    match findCodeNode c with
    | some x => some x
    | none => findCodeList cs

end

/-- The class list of a node (`code.get('class', [])` applied to the
found code element; a text node carries no attributes). -/
def nodeClasses : Node → List String
  | .text _ => []
  | .elem _ attrs _ => classesOf attrs

/-- The fenced replacement text built at line 128:
`f"```{language}\n{code_text}\n```"`. -/
def fencedText (prefixes : List String) (code : Node) : String :=
  "```" ++ languageOf prefixes (nodeClasses code) ++ "\n" ++ getTextNode code ++ "\n```"

mutual

/-- `_process_code_blocks` (lines 114-129): every `pre` element with a
`code` descendant is replaced (`pre.replace_with(new_tag)`) by a fresh
attribute-less `pre` whose single child is the fenced text; a `pre`
without a `code` descendant is left as is (and can contain no nested
`pre` with code, since such a `code` would be its own descendant); other
elements keep tag and attributes and have their children processed. -/
def processCodeBlocksNode (prefixes : List String) : Node → Node
  | .text s => .text s
  | .elem tag attrs cs =>
    if tag = "pre" then
      match findCodeList cs with
      | some code => .elem "pre" [] [.text (fencedText prefixes code)]
      | none => .elem "pre" attrs cs
    else .elem tag attrs (processCodeBlocksList prefixes cs)

def processCodeBlocksList (prefixes : List String) : List Node → List Node
  | [] => []
  | c :: cs => processCodeBlocksNode prefixes c :: processCodeBlocksList prefixes cs

end

/-!
### Relative URL rewriting (`_convert_relative_urls`, lines 131-145)
-/

/-- The rewritten reference value: an `href`/`src` that does not start
with `http://` or `https://` becomes
`f"{base_url.rstrip('/')}/{ref.lstrip('/')}"`; an absolute one is kept. -/
def rewriteRef (base v : String) : String :=
  if pyStartsWith v "http://" || pyStartsWith v "https://" then v
  else rstripSlash base ++ "/" ++ lstripSlash v

/-- The per-element action of the `find_all(['a', 'img'])` loop:
an `a` with an `href` gets its `href` rewritten, an `img` with a `src`
gets its `src` rewritten, every other element is untouched. -/
def rewriteAttrs (base tag : String) (attrs : List (String × String)) :
    List (String × String) :=
  if tag = "a" then
    match getAttr attrs "href" with
    | some v => setAttr attrs "href" (rewriteRef base v)
    | none => attrs
  else if tag = "img" then
    match getAttr attrs "src" with
    | some v => setAttr attrs "src" (rewriteRef base v)
    | none => attrs
  else attrs

mutual

def convertRelativeUrlsNode (base : String) : Node → Node
  | .text s => .text s
  | .elem tag attrs cs =>
    .elem tag (rewriteAttrs base tag attrs) (convertRelativeUrlsList base cs)

def convertRelativeUrlsList (base : String) : List Node → List Node
  | [] => []
  | c :: cs => convertRelativeUrlsNode base c :: convertRelativeUrlsList base cs

end

/-- Python `url or self.config.base_url` (line 101): the argument wins
unless it is `None` or empty. -/
def pyOrBase (url : Option String) (cfgBase : Option String) : Option String :=
  match url with
  | some u => if u = "" then cfgBase else some u
  | none => cfgBase

/-- The tree part of `clean_html` (lines 93-105), after readability
extraction and parsing: remove configured elements, normalize code
blocks, then — `if base_url:` (line 102), i.e. only when
`url or config.base_url` is neither `None` nor the falsy empty string —
rewrite relative references against it. -/
def cleanTree (cfg : ConversionConfig) (url : Option String)
    (forest : List Node) : List Node :=
  let f1 := removeElemsList cfg.remove_elements forest
  let f2 := processCodeBlocksList cfg.code_language_classes f1
  match pyOrBase url cfg.base_url with
  | some b => if b = "" then f2 else convertRelativeUrlsList b f2
  | none => f2

/-!
### Occurrence predicates for tree claims
-/

/-- `Occurs n m`: node `n` appears in the tree `m` (as `m` itself or
nested below it). -/
inductive Occurs : Node → Node → Prop where
  | refl (n : Node) : Occurs n n
  | child {n c : Node} (tag : String) (attrs : List (String × String))
      (cs : List Node) (hc : c ∈ cs) (h : Occurs n c) :
      Occurs n (.elem tag attrs cs)

/-- `OccursClean remove n m`: node `n` appears in `m` along a path on
which no strict ancestor has a tag in `remove`. -/
inductive OccursClean (remove : List String) : Node → Node → Prop where
  | refl (n : Node) : OccursClean remove n n
  | child {n c : Node} (tag : String) (attrs : List (String × String))
      (cs : List Node) (ht : tag ∉ remove) (hc : c ∈ cs)
      (h : OccursClean remove n c) :
      OccursClean remove n (.elem tag attrs cs)

/-!
### Filename generation

The live package (`site_to_md/__init__.py` imports `site_to_md/converter.py`)
uses `generate_filename` (lines 201-226); the second copy of the module at
`site_to_md/site_to_md/converter.py` carries `_get_safe_filename`
(lines 208-237).  Both are embedded.  `urllib.parse.urlparse` is embedded
for absolute `scheme://netloc/path` URLs (query and fragment separated,
parameters unused by the source).
-/

structure UrlParts where
  netloc : String
  path : String

/-- Drop everything up to and including the first `://`. -/
def afterScheme : List Char → List Char
  | ':' :: '/' :: '/' :: rest => rest
  | _ :: rest => afterScheme rest
  | [] => []

/-- `urllib.parse.urlparse` restricted to absolute `http(s)://` URLs:
netloc up to the first `/`, `?` or `#`; path up to the first `?` or `#`. -/
def parseUrl (url : String) : UrlParts :=
  let rest := afterScheme url.data
  let netloc := rest.takeWhile (fun c => c ≠ '/' && c ≠ '?' && c ≠ '#')
  let path := (rest.drop netloc.length).takeWhile (fun c => c ≠ '?' && c ≠ '#')
  ⟨String.mk netloc, String.mk path⟩

/-- `PurePosixPath(path).name`: the last path component, with empty and
`.` segments dropped by pathlib's normalization; `''` when none remains. -/
def pathName (path : String) : String :=
  String.mk ((((splitOnChar '/' path.data).filter
    (fun p => p ≠ [] && p ≠ ['.'])).getLastD []))

/-- `re.sub(r'[^\w\-_.]', '_', ·)` (line 222 / line 235): every character
outside `[A-Za-z0-9_.-]` becomes `_`. -/
def sanitizeName (s : String) : String :=
  String.mk (s.data.map (fun c =>
    if isWordChar c || c = '-' || c = '.' then c else '_'))

/-- `generate_filename` (lines 201-226) of the live converter module:
last path component (or last nonempty path part, or the domain), cleaned,
with `.md` appended after stripping trailing dots unless the name already
ends in `.md`. -/
def generateFilename (url : String) : String :=
  let parsed := parseUrl url
  let fname0 := pathName parsed.path
  let fname1 :=
    if fname0 = "" then
      match ((splitOnChar '/' parsed.path.data).filter (fun p => p ≠ [])).getLast? with
      | some p => String.mk p
      | none => parsed.netloc
    else fname0
  let fname2 := sanitizeName fname1
  if endsWithMd fname2.data then fname2 else rstripDot fname2 ++ ".md"

/-- Value of a hexadecimal digit, `none` otherwise (ASCII arithmetic:
digits sit at 48, lowercase letters at 97 so `a` maps to `97 - 87 = 10`,
uppercase at 65 so `A` maps to `65 - 55 = 10`). -/
def hexVal (c : Char) : Option Nat :=
  if c.isDigit then some (c.toNat - 48)
  else if 'a' ≤ c ∧ c ≤ 'f' then some (c.toNat - 87)
  else if 'A' ≤ c ∧ c ≤ 'F' then some (c.toNat - 55)
  else none

/-- `urllib.parse.unquote` restricted to ASCII percent-escapes: each
valid `%XX` pair is decoded, everything else is kept. -/
def unquoteChars : List Char → List Char
  | '%' :: a :: b :: rest =>
    match hexVal a, hexVal b with
    | some x, some y => Char.ofNat (16 * x + y) :: unquoteChars rest
    | _, _ => '%' :: unquoteChars (a :: b :: rest)
  | c :: rest => c :: unquoteChars rest
  | [] => []

/-- `os.path.splitext(name)[0]` for a name without separators: drop the
suffix from the last dot, unless only dots precede it (leading-dot names
keep their dots). -/
def splitextBase (name : String) : String :=
  let l := name.data
  let tailLen := (l.reverse.takeWhile (fun c => c ≠ '.')).length
  if tailLen = l.length then name
  else
    let i := l.length - tailLen - 1
    if (l.take i).any (fun c => c ≠ '.') then String.mk (l.take i) else name

/-- `_get_safe_filename` (second module copy, lines 208-237): last
nonempty component of the unquoted path (or the domain), extension
stripped, cleaned, with `.md` appended. -/
def safeFilename (url : String) : String :=
  let parsed := parseUrl url
  let baseName :=
    if parsed.path ≠ "" && parsed.path ≠ "/" then
      let cleanPath := stripSlash (String.mk (unquoteChars parsed.path.data))
      match ((splitOnChar '/' cleanPath.data).filter (fun p => p ≠ [])).getLast? with
      | some p => String.mk p
      | none => parsed.netloc
    else parsed.netloc
  sanitizeName (splitextBase baseName) ++ ".md"

/-!
### The `convert` pipeline (lines 228-273)

`convert` runs fetch, clean, markdown conversion, then creates the output
directory and writes the file; the surrounding `try`/`except` logs and
re-raises, so any stage failure propagates unchanged.  The staged
computations are embedded as `Except`-valued collaborators and the
written files as an explicit event list: a write event is produced only
after every earlier stage has succeeded.
-/

structure PipelineOps (E : Type) where
  fetchUrl : String → Except E String
  cleanHtml : String → Option String → Except E String
  htmlToMarkdown : String → Except E String
  mkOutputDir : Except E Unit

/-- `convert url`: result (the output file path on success, the
propagated error otherwise) paired with the list of `(path, content)`
file writes performed. -/
def convertRun {E : Type} (ops : PipelineOps E) (url : String)
    (outputDir : String) : Except E String × List (String × String) :=
  match ops.fetchUrl url with
  | .error e => (.error e, [])
  | .ok html =>
    match ops.cleanHtml html (some url) with
    | .error e => (.error e, [])
    | .ok cleaned =>
      match ops.htmlToMarkdown cleaned with
      | .error e => (.error e, [])
      | .ok md =>
        match ops.mkOutputDir with
        | .error e => (.error e, [])
        | .ok _ =>
          let file := outputDir ++ "/" ++ generateFilename url
          (.ok file, [(file, md)])

/-!
### Spec-side definitions for refinement comparisons
-/

/-- Spec wording for C3: "the substring of that class after the first
`-` separator". -/
def afterFirstDash (cls : String) : String :=
  String.mk ((cls.data.dropWhile (fun c => c ≠ '-')).drop 1)

/-- Spec wording for C4: "the first prefix in `code_language_classes`
that matches some class wins": pick the first configured prefix matching
any class, then the first class carrying that prefix. -/
def specLanguageOf (prefixes : List String) (classes : List String) : String :=
  match prefixes.find? (fun p => classes.any (fun cls => pyStartsWith cls p)) with
  | some p =>
    match classes.find? (fun cls => pyStartsWith cls p) with
    | some cls => splitDashIdx1 cls
    | none => ""
  | none => ""

/-!
## Helper lemmas
-/

theorem getAttr_setAttr (attrs : List (String × String)) (k v w : String)
    (h : getAttr attrs k = some v) :
    getAttr (setAttr attrs k w) k = some w := by
  induction attrs with
  | nil => simp [getAttr] at h
  | cons p rest ih =>
    by_cases hk : p.1 = k
    · simp [getAttr, setAttr, hk]
    · simp only [getAttr, setAttr, hk, if_neg, List.map_cons, if_false] at h ⊢
      simpa [setAttr, hk] using ih h

theorem mem_convertRelativeUrlsList (base : String) {c : Node} {cs : List Node}
    (h : c ∈ cs) :
    convertRelativeUrlsNode base c ∈ convertRelativeUrlsList base cs := by
  induction cs with
  | nil => cases h
  | cons d ds ih =>
    rw [convertRelativeUrlsList]
    rcases List.mem_cons.mp h with h1 | h1
    · subst h1; exact List.mem_cons_self _ _
    · exact List.mem_cons_of_mem _ (ih h1)

theorem languageOf_eq_empty (prefixes classes : List String)
    (h : ∀ cls ∈ classes, ∀ p ∈ prefixes, pyStartsWith cls p = false) :
    languageOf prefixes classes = "" := by
  unfold languageOf
  have hfind : classes.find? (fun cls => prefixes.any (fun p => pyStartsWith cls p)) = none := by
    apply List.find?_eq_none.mpr
    intro cls hcls hcon
    rcases List.any_eq_true.mp hcon with ⟨p, hp, hps⟩
    rw [h cls hcls p hp] at hps
    exact Bool.false_ne_true hps
  rw [hfind]

/-!
## Claims
-/

/-- C2 (confirmed): for every anchor with an `href` and image with a `src`
in the tree, relative-URL rewriting keeps values that start with
`http://` or `https://` and replaces any other value by the base URL with
trailing slashes stripped, a single `/`, and the value with leading
slashes stripped; the rewrite of any subtree appears in the rewrite of
the whole tree, and the two concrete examples of the spec hold. -/
theorem relative_url_rewriting (base : String) (t n : Node) (h : Occurs n t) :
    Occurs (convertRelativeUrlsNode base n) (convertRelativeUrlsNode base t)
    ∧ (∀ tag attrs cs, convertRelativeUrlsNode base (.elem tag attrs cs)
        = .elem tag (rewriteAttrs base tag attrs) (convertRelativeUrlsList base cs))
    ∧ (∀ attrs v, getAttr attrs "href" = some v →
        getAttr (rewriteAttrs base "a" attrs) "href"
          = some (if pyStartsWith v "http://" || pyStartsWith v "https://" then v
              else rstripSlash base ++ "/" ++ lstripSlash v))
    ∧ (∀ attrs v, getAttr attrs "src" = some v →
        getAttr (rewriteAttrs base "img" attrs) "src"
          = some (if pyStartsWith v "http://" || pyStartsWith v "https://" then v
              else rstripSlash base ++ "/" ++ lstripSlash v))
    ∧ rewriteRef "https://example.com/blog/" "post2" = "https://example.com/blog/post2"
    ∧ rewriteRef "https://example.com/blog/" "https://other.com/x" = "https://other.com/x" := by
  refine ⟨?_, ?_, ?_, ?_, by decide, by decide⟩
  · induction h with
    | refl => exact Occurs.refl _
    | child tag attrs cs hc hsub ih =>
      rw [convertRelativeUrlsNode]
      exact Occurs.child _ _ _ (mem_convertRelativeUrlsList base hc) ih
  · intro tag attrs cs
    rw [convertRelativeUrlsNode]
  · intro attrs v hv
    have : rewriteAttrs base "a" attrs = setAttr attrs "href" (rewriteRef base v) := by
      simp [rewriteAttrs, hv]
    rw [this, getAttr_setAttr attrs "href" v _ hv, rewriteRef]
  · intro attrs v hv
    have : rewriteAttrs base "img" attrs = setAttr attrs "src" (rewriteRef base v) := by
      simp [rewriteAttrs, hv]
    rw [this, getAttr_setAttr attrs "src" v _ hv, rewriteRef]

/-- Witness for C2 at a concrete tree: the anchor `href="post2"` inside a
`div`, with base `https://example.com/blog/`. -/
theorem relative_url_rewriting_witness :
    Occurs (convertRelativeUrlsNode "https://example.com/blog/" (.elem "a" [("href", "post2")] []))
      (convertRelativeUrlsNode "https://example.com/blog/"
        (.elem "div" [] [.elem "a" [("href", "post2")] []])) :=
  (relative_url_rewriting "https://example.com/blog/" _ _
    (Occurs.child "div" [] _ (List.mem_singleton.mpr rfl) (Occurs.refl _))).1

/-- C5 (confirmed): a preformatted block containing a code element is
replaced by a single attribute-less preformatted node whose entire text
is the opening fence plus the language tag, a newline, the code element's
raw text, a newline, and the closing fence; and a class list in which no
class starts with a recognized prefix yields the empty language tag. -/
theorem code_block_replacement (prefixes : List String)
    (attrs : List (String × String)) (cs : List Node) (code : Node)
    (h : findCodeList cs = some code) :
    processCodeBlocksNode prefixes (.elem "pre" attrs cs)
      = .elem "pre" []
          [.text ("```" ++ languageOf prefixes (nodeClasses code)
            ++ "\n" ++ getTextNode code ++ "\n" ++ "```")]
    ∧ (∀ classes, (∀ cls ∈ classes, ∀ p ∈ prefixes, pyStartsWith cls p = false) →
        languageOf prefixes classes = "") := by
  constructor
  · rw [processCodeBlocksNode]
    simp only [if_pos rfl, h, fencedText]
    have hs : ("\n```" : String) = "\n" ++ "```" := rfl
    rw [hs]
    simp [String.append_assoc]
  · exact fun classes hcl => languageOf_eq_empty prefixes classes hcl

/-- Witness for C5: `<pre><code class="language-python">x = 1</code></pre>`. -/
theorem code_block_replacement_witness :
    processCodeBlocksNode ["language-", "lang-"]
        (.elem "pre" [] [.elem "code" [("class", "language-python")] [.text "x = 1"]])
      = .elem "pre" []
          [.text ("```"
            ++ languageOf ["language-", "lang-"]
                 (nodeClasses (.elem "code" [("class", "language-python")] [.text "x = 1"]))
            ++ "\n" ++ getTextNode (.elem "code" [("class", "language-python")] [.text "x = 1"])
            ++ "\n" ++ "```")] :=
  (code_block_replacement ["language-", "lang-"] []
    [.elem "code" [("class", "language-python")] [.text "x = 1"]]
    (.elem "code" [("class", "language-python")] [.text "x = 1"]) rfl).1

/-- C10 (confirmed): code-block normalization leaves a `pre` element with
no code descendant fully unchanged, leaves the tag and attributes of
every non-`pre` element unchanged (only processing its children), and
leaves text nodes unchanged. -/
theorem code_block_frame (prefixes : List String) (tag : String)
    (attrs : List (String × String)) (cs : List Node) (s : String) :
    (findCodeList cs = none →
      processCodeBlocksNode prefixes (.elem "pre" attrs cs) = .elem "pre" attrs cs)
    ∧ (tag ≠ "pre" →
      processCodeBlocksNode prefixes (.elem tag attrs cs)
        = .elem tag attrs (processCodeBlocksList prefixes cs))
    ∧ processCodeBlocksNode prefixes (.text s) = .text s := by
  refine ⟨fun h => ?_, fun htag => ?_, rfl⟩
  · rw [processCodeBlocksNode]
    simp [h]
  · rw [processCodeBlocksNode]
    simp [htag]

/-- Witness for C10: a `pre` without code and a `div` are left in place. -/
theorem code_block_frame_witness :
    processCodeBlocksNode ["language-", "lang-"] (.elem "pre" [("id", "x")] [.text "t"])
      = .elem "pre" [("id", "x")] [.text "t"]
    ∧ processCodeBlocksNode ["language-", "lang-"] (.elem "div" [("id", "y")] [])
      = .elem "div" [("id", "y")] (processCodeBlocksList ["language-", "lang-"] []) :=
  ⟨(code_block_frame ["language-", "lang-"] "pre" [("id", "x")] [.text "t"] "").1 rfl,
   (code_block_frame ["language-", "lang-"] "div" [("id", "y")] [] "").2.1 (by decide)⟩

/-- Counterexample for C8: with `base_url` configured to
`https://override.example` and the document URL `https://example.com/blog/`
supplied, the relative `href="post2"` is resolved against the document
URL, not against the configured `base_url` (which the claim requires:
that resolution would give `https://override.example/post2`). -/
theorem base_url_override_counterexample :
    cleanTree { base_url := some "https://override.example" }
        (some "https://example.com/blog/")
        [.elem "a" [("href", "post2")] []]
      = [.elem "a" [("href", "https://example.com/blog/post2")] []]
    ∧ rewriteRef "https://override.example" "post2" = "https://override.example/post2"
    ∧ ("https://example.com/blog/post2" : String) ≠ "https://override.example/post2" :=
  ⟨rfl, by decide, by decide⟩

/-- C8 (corrected): `base_url` is a fallback, not an override: cleaning
resolves relative references against the configured `base_url` only when
no truthy document URL is supplied; a nonempty document URL takes
precedence, an empty document URL behaves like an absent one, and a
configured `base_url` that is `None` or the falsy empty string leaves
references unrewritten. -/
theorem base_url_fallback (cfg : ConversionConfig) (forest : List Node) (u b : String) :
    (cfg.base_url = some b → b ≠ "" →
      cleanTree cfg none forest
        = convertRelativeUrlsList b (processCodeBlocksList cfg.code_language_classes
            (removeElemsList cfg.remove_elements forest)))
    ∧ (u ≠ "" →
      cleanTree cfg (some u) forest
        = convertRelativeUrlsList u (processCodeBlocksList cfg.code_language_classes
            (removeElemsList cfg.remove_elements forest)))
    ∧ cleanTree cfg (some "") forest = cleanTree cfg none forest
    ∧ (cfg.base_url = some "" →
      cleanTree cfg none forest
        = processCodeBlocksList cfg.code_language_classes
            (removeElemsList cfg.remove_elements forest))
    ∧ (cfg.base_url = none →
      cleanTree cfg none forest
        = processCodeBlocksList cfg.code_language_classes
            (removeElemsList cfg.remove_elements forest)) := by
  refine ⟨fun hb hbne => ?_, fun hu => ?_, ?_, fun hb => ?_, fun hb => ?_⟩
  · simp [cleanTree, pyOrBase, hb, hbne]
  · simp [cleanTree, pyOrBase, hu]
  · simp [cleanTree, pyOrBase]
  · simp [cleanTree, pyOrBase, hb]
  · simp [cleanTree, pyOrBase, hb]

/-- Witness for C8: a nonempty configured base is used when no document
URL is given, and an empty configured base skips rewriting. -/
theorem base_url_fallback_witness :
    (cleanTree { base_url := some "https://cfg.example" } none [.elem "a" [("href", "p")] []]
      = convertRelativeUrlsList "https://cfg.example"
          (processCodeBlocksList ["language-", "lang-"]
            (removeElemsList ["script", "style", "nav", "footer", "iframe", "aside"]
              [.elem "a" [("href", "p")] []])))
    ∧ (cleanTree { base_url := some "" } none [.elem "a" [("href", "p")] []]
      = processCodeBlocksList ["language-", "lang-"]
          (removeElemsList ["script", "style", "nav", "footer", "iframe", "aside"]
            [.elem "a" [("href", "p")] []])) :=
  ⟨(base_url_fallback { base_url := some "https://cfg.example" }
      [.elem "a" [("href", "p")] []] "https://example.com/" "https://cfg.example").1
      rfl (by decide),
   (base_url_fallback { base_url := some "" }
      [.elem "a" [("href", "p")] []] "https://example.com/" "").2.2.2.1 rfl⟩

/-- C9 (confirmed): if fetching, cleaning, or markdown conversion fails,
`convert` propagates that error unchanged and performs no file write. -/
theorem convert_abort_no_write {E : Type} (ops : PipelineOps E) (url outDir : String) :
    (∀ e, ops.fetchUrl url = .error e → convertRun ops url outDir = (.error e, []))
    ∧ (∀ html e, ops.fetchUrl url = .ok html →
        ops.cleanHtml html (some url) = .error e →
        convertRun ops url outDir = (.error e, []))
    ∧ (∀ html cleaned e, ops.fetchUrl url = .ok html →
        ops.cleanHtml html (some url) = .ok cleaned →
        ops.htmlToMarkdown cleaned = .error e →
        convertRun ops url outDir = (.error e, [])) := by
  refine ⟨fun e h1 => ?_, fun html e h1 h2 => ?_, fun html cleaned e h1 h2 h3 => ?_⟩
  · simp [convertRun, h1]
  · simp [convertRun, h1, h2]
  · simp [convertRun, h1, h2, h3]

/-- Witness for C9: a failing fetch stage aborts with its error and an
empty write log. -/
theorem convert_abort_no_write_witness :
    convertRun (E := String)
        ⟨fun _ => .error "netfail", fun _ _ => .ok "", fun _ => .ok "", .ok ()⟩
        "https://example.com/" "/tmp/out"
      = (.error "netfail", []) :=
  (convert_abort_no_write
    ⟨fun _ => .error "netfail", fun _ _ => .ok "", fun _ => .ok "", .ok ()⟩
    "https://example.com/" "/tmp/out").1 "netfail" rfl

theorem splitOnChar_ne_nil (sep : Char) (l : List Char) : splitOnChar sep l ≠ [] := by
  cases l with
  | nil => simp [splitOnChar]
  | cons c rest =>
    rw [splitOnChar]
    by_cases h : c = sep
    · simp [h]
    · simp only [h, if_false]
      rcases hs : splitOnChar sep rest with _ | ⟨p, ps⟩ <;> simp

theorem headD_splitOnChar (sep : Char) (l : List Char) :
    (splitOnChar sep l).headD [] = l.takeWhile (fun c => c != sep) := by
  induction l with
  | nil => rfl
  | cons c rest ih =>
    rw [splitOnChar]
    by_cases h : c = sep
    · simp [h]
    · simp only [h, if_false]
      rcases hs : splitOnChar sep rest with _ | ⟨p, ps⟩
      · exact absurd hs (splitOnChar_ne_nil sep rest)
      · rw [hs] at ih
        simp only [List.headD_cons] at ih
        simp [List.takeWhile_cons, h, ih]

theorem splitOnChar_append (sep : Char) (a b : List Char) (ha : sep ∉ a) :
    splitOnChar sep (a ++ sep :: b) = a :: splitOnChar sep b := by
  induction a with
  | nil => simp [splitOnChar]
  | cons c arest ih =>
    have hc : ¬ (c = sep) := fun h => ha (h ▸ List.mem_cons_self c arest)
    rw [List.cons_append, splitOnChar, if_neg hc,
      ih (fun h => ha (List.mem_cons_of_mem _ h))]

theorem splitDashIdx1_eq (cls : String) (a b : List Char) (ha : '-' ∉ a)
    (hcls : cls.data = a ++ '-' :: b) :
    splitDashIdx1 cls = String.mk (b.takeWhile (fun c => c != '-')) := by
  rw [splitDashIdx1, hcls, splitOnChar_append '-' a b ha]
  show String.mk ((splitOnChar '-' b).headD []) = _
  rw [headD_splitOnChar]

/-- Counterexample for C3: the class `language-objective-c` starts with
the recognized prefix `language-`; the substring after its first `-`
separator is `objective-c`, but the code (`cls.split('-')[1]`) produces
`objective`. -/
theorem language_tag_counterexample :
    languageOf ["language-", "lang-"] ["language-objective-c"] = "objective"
    ∧ afterFirstDash "language-objective-c" = "objective-c"
    ∧ languageOf ["language-", "lang-"] ["language-objective-c"]
        ≠ afterFirstDash "language-objective-c" := by
  refine ⟨by decide, by decide, by decide⟩

/-- C3 (corrected): the language tag is the segment of the matching class
between its first and second `-` separators (`cls.split('-')[1]`), i.e.
the substring after the first `-` truncated before the next `-` — not the
whole substring after the first `-`. -/
theorem language_tag_amended (prefixes classes : List String) (cls : String)
    (hfind : classes.find? (fun c => prefixes.any (fun p => pyStartsWith c p)) = some cls)
    (a b : List Char) (ha : '-' ∉ a) (hcls : cls.data = a ++ '-' :: b) :
    languageOf prefixes classes = String.mk (b.takeWhile (fun c => c != '-')) := by
  rw [languageOf, hfind]
  exact splitDashIdx1_eq cls a b ha hcls

/-- Witness for C3 at the class `language-objective-c`: the tag is the
segment `objective` between the first and second dashes. -/
theorem language_tag_amended_witness :
    languageOf ["language-", "lang-"] ["language-objective-c"]
      = String.mk ("objective-c".data.takeWhile (fun c => c != '-')) :=
  language_tag_amended ["language-", "lang-"] ["language-objective-c"]
    "language-objective-c" (by decide) "language".data "objective-c".data
    (by decide) (by decide)

/-- Counterexample for C4: with the default prefix order
`["language-", "lang-"]` and class list `["lang-js", "language-python"]`,
prefix order would select `language-python` (tag `python`), but the code
scans classes in class-list order and selects `lang-js` (tag `js`). -/
theorem prefix_order_counterexample :
    languageOf ["language-", "lang-"] ["lang-js", "language-python"] = "js"
    ∧ specLanguageOf ["language-", "lang-"] ["lang-js", "language-python"] = "python"
    ∧ languageOf ["language-", "lang-"] ["lang-js", "language-python"]
        ≠ specLanguageOf ["language-", "lang-"] ["lang-js", "language-python"] := by
  refine ⟨by decide, by decide, by decide⟩

/-- C4 (corrected): when several classes match recognized prefixes, the
first class in class-list order that starts with any configured prefix
wins; the order of the configured prefixes is irrelevant (any permutation
of them yields the same language tag). -/
theorem class_order_wins :
    (∀ (prefixes : List String) (cls : String) (classes : List String),
      prefixes.any (fun p => pyStartsWith cls p) = true →
      languageOf prefixes (cls :: classes) = splitDashIdx1 cls)
    ∧ (∀ (prefixes : List String) (cls : String) (classes : List String),
      prefixes.any (fun p => pyStartsWith cls p) = false →
      languageOf prefixes (cls :: classes) = languageOf prefixes classes)
    ∧ (∀ (prefixes prefixes2 classes : List String), prefixes.Perm prefixes2 →
      languageOf prefixes classes = languageOf prefixes2 classes) := by
  refine ⟨fun prefixes cls classes h => ?_, fun prefixes cls classes h => ?_,
    fun prefixes prefixes2 classes hperm => ?_⟩
  · rw [languageOf,
      @List.find?_cons_of_pos _ (fun c => prefixes.any (fun p => pyStartsWith c p)) cls classes h]
  · rw [languageOf, languageOf,
      @List.find?_cons_of_neg _ (fun c => prefixes.any (fun p => pyStartsWith c p)) cls classes
        (by simp [h])]
  · have key : ∀ cls : String,
        prefixes.any (fun p => pyStartsWith cls p)
          = prefixes2.any (fun p => pyStartsWith cls p) := by
      intro cls
      have h1 : prefixes.any (fun p => pyStartsWith cls p) = true
          ↔ prefixes2.any (fun p => pyStartsWith cls p) = true := by
        simp only [List.any_eq_true]
        constructor
        · rintro ⟨p, hp, hf⟩; exact ⟨p, hperm.mem_iff.mp hp, hf⟩
        · rintro ⟨p, hp, hf⟩; exact ⟨p, hperm.mem_iff.mpr hp, hf⟩
      revert h1
      generalize prefixes.any (fun p => pyStartsWith cls p) = x
      generalize prefixes2.any (fun p => pyStartsWith cls p) = y
      intro h1
      cases x <;> cases y <;> simp_all
    rw [languageOf, languageOf, funext key]

/-- Witness for C4: the matching head class `lang-js` wins at once. -/
theorem class_order_wins_witness :
    languageOf ["language-", "lang-"] ("lang-js" :: ["language-python"])
      = splitDashIdx1 "lang-js" :=
  class_order_wins.1 ["language-", "lang-"] "lang-js" ["language-python"] (by decide)

theorem mem_removeElemsList (remove : List String) (cs : List Node) (r : Node) :
    r ∈ removeElemsList remove cs ↔ ∃ m ∈ cs, removeElemsNode remove m = some r := by
  induction cs with
  | nil => simp [removeElemsList]
  | cons c rest ih =>
    rw [removeElemsList]
    rcases hm : removeElemsNode remove c with _ | c2
    · simp only [List.mem_cons, exists_eq_or_imp, hm]
      simp [ih]
    · simp only [List.mem_cons, exists_eq_or_imp, hm, Option.some.injEq]
      constructor
      · rintro (h1 | h1)
        · exact Or.inl h1.symm
        · exact Or.inr (ih.mp h1)
      · rintro (h1 | h1)
        · exact Or.inl h1.symm
        · exact Or.inr (ih.mpr h1)

theorem removeElems_occursClean (remove : List String) {r n : Node} (h : Occurs n r) :
    ∀ m : Node, removeElemsNode remove m = some r →
      ∃ m0, OccursClean remove m0 m ∧ removeElemsNode remove m0 = some n := by
  induction h with
  | refl => exact fun m hm => ⟨m, OccursClean.refl _, hm⟩
  | child tag attrs cs hc hsub ih =>
    intro m hm
    cases m with
    | text s =>
      rw [removeElemsNode] at hm
      injection hm with h2
      exact Node.noConfusion h2
    | elem t a cs0 =>
      rw [removeElemsNode] at hm
      by_cases ht : t ∈ remove
      · rw [if_pos ht] at hm
        cases hm
      · rw [if_neg ht] at hm
        injection hm with h2
        injection h2 with htag hattrs hcs
        rcases (mem_removeElemsList remove cs0 _).mp (hcs ▸ hc) with ⟨mc, hmc, hmceq⟩
        rcases ih mc hmceq with ⟨m0, hocc, hm0⟩
        exact ⟨m0, OccursClean.child t a cs0 ht hmc hocc, hm0⟩

/-- C6 (confirmed): every node occurring in the sanitized forest is the
sanitized image of a node that occurs in the input forest on a path with
no removed-tag ancestor; in particular no element whose tag is in
`remove_elements` occurs in the sanitized forest (removal depends only on
the tag), so a removed element and all its descendants leave no trace. -/
theorem removed_subtrees_absent (remove : List String) (forest : List Node) (n r : Node)
    (hr : r ∈ removeElemsList remove forest) (hn : Occurs n r) :
    (∃ m0, (∃ root ∈ forest, OccursClean remove m0 root)
      ∧ removeElemsNode remove m0 = some n)
    ∧ (∀ tag attrs cs, n = .elem tag attrs cs → tag ∉ remove) := by
  rcases (mem_removeElemsList remove forest r).mp hr with ⟨root, hroot, hrooteq⟩
  rcases removeElems_occursClean remove hn root hrooteq with ⟨m0, hocc, hm0⟩
  refine ⟨⟨m0, ⟨root, hroot, hocc⟩, hm0⟩, ?_⟩
  intro tag attrs cs hne
  subst hne
  cases m0 with
  | text s =>
    rw [removeElemsNode] at hm0
    injection hm0 with h2
    exact Node.noConfusion h2
  | elem t a cs0 =>
    rw [removeElemsNode] at hm0
    by_cases ht : t ∈ remove
    · rw [if_pos ht] at hm0
      cases hm0
    · rw [if_neg ht] at hm0
      injection hm0 with h2
      injection h2 with htag hattrs hcs
      exact htag ▸ ht

/-- Witness for C6: sanitizing `[<div>y</div>]` with `remove = ["nav"]`
keeps the `div` and its text, both reached along clean paths. -/
theorem removed_subtrees_absent_witness :
    (∃ m0, (∃ root ∈ [Node.elem "div" [] [.text "y"]], OccursClean ["nav"] m0 root)
      ∧ removeElemsNode ["nav"] m0 = some (.text "y"))
    ∧ (∀ tag attrs cs, Node.text "y" = Node.elem tag attrs cs → tag ∉ ["nav"]) :=
  removed_subtrees_absent ["nav"] [Node.elem "div" [] [.text "y"]]
    (.text "y") (.elem "div" [] [.text "y"])
    ((mem_removeElemsList ["nav"] _ _).mpr
      ⟨.elem "div" [] [.text "y"], List.mem_singleton.mpr rfl, rfl⟩)
    (Occurs.child "div" [] _ (List.mem_singleton.mpr rfl) (Occurs.refl _))

theorem endsWithMd_decomp (l : List Char) (h : endsWithMd l = true) :
    ∃ stem, l = stem ++ ['.', 'm', 'd'] := by
  unfold endsWithMd at h
  have h2 := of_decide_eq_true h
  refine ⟨(l.reverse.drop 3).reverse, ?_⟩
  have h3 := List.take_append_drop 3 l.reverse
  rw [h2] at h3
  have h4 := congrArg List.reverse h3
  rw [List.reverse_append] at h4
  simpa using h4.symm

theorem mdSuffix (x : String) :
    ∃ stem, (if endsWithMd x.data then x else rstripDot x ++ ".md").data
      = stem ++ ['.', 'm', 'd'] := by
  by_cases h : endsWithMd x.data
  · rw [if_pos h]
    exact endsWithMd_decomp _ h
  · rw [if_neg h]
    exact ⟨(rstripDot x).data, String.data_append _ _⟩

theorem sanitizeName_chars (s : String) :
    ∀ c ∈ (sanitizeName s).data, c.isAlphanum = true ∨ c = '_' ∨ c = '-' ∨ c = '.' := by
  intro c hc
  unfold sanitizeName at hc
  rcases List.mem_map.mp hc with ⟨a, ha, rfl⟩
  by_cases h : (isWordChar a || a = '-' || a = '.') = true
  · rw [if_pos h]
    simp only [isWordChar, Bool.or_eq_true, decide_eq_true_eq] at h
    tauto
  · rw [if_neg h]
    exact Or.inr (Or.inl rfl)

/-- Counterexample for C7: the live `generate_filename` does not strip
the original extension: `https://example.com/docs/guide.html` maps to
`guide.html.md`, not to `guide.md`. -/
theorem filename_counterexample :
    generateFilename "https://example.com/docs/guide.html" = "guide.html.md"
    ∧ generateFilename "https://example.com/docs/guide.html" ≠ "guide.md" :=
  ⟨by decide, by decide⟩

/-- C7 (corrected): the packaged `generate_filename` keeps the original
extension and appends `.md` (`guide.html.md`); only the secondary
`_get_safe_filename` copy strips it to give `guide.md`.  The no-path URL
`https://example.com/` yields a domain-derived name under both; every
generated name ends in `.md`, and the cleaning step maps every character
outside `[A-Za-z0-9._-]` to `_`. -/
theorem filename_generation (url s : String) :
    generateFilename "https://example.com/docs/guide.html" = "guide.html.md"
    ∧ safeFilename "https://example.com/docs/guide.html" = "guide.md"
    ∧ generateFilename "https://example.com/" = "example.com.md"
    ∧ safeFilename "https://example.com/" = "example.md"
    ∧ (∃ stem : List Char, (generateFilename url).data = stem ++ ['.', 'm', 'd'])
    ∧ (∀ c ∈ (sanitizeName s).data, c.isAlphanum = true ∨ c = '_' ∨ c = '-' ∨ c = '.') :=
  ⟨by decide, by decide, by decide, by decide, mdSuffix _, sanitizeName_chars s⟩

theorem listStarts_length {p l : List Char} (h : listStarts p l = true) :
    p.length ≤ l.length := by
  induction p generalizing l with
  | nil => simp
  | cons a ps ih =>
    cases l with
    | nil => rw [listStarts] at h; cases h
    | cons c cs =>
      rw [listStarts] at h
      simp only [Bool.and_eq_true] at h
      simp only [List.length_cons]
      exact Nat.succ_le_succ (ih h.2)

theorem stepCodeOpen_strict (l rep rest : List Char)
    (h : stepCodeOpen l = some (rep, rest)) :
    rep.length + rest.length < l.length := by
  unfold stepCodeOpen at h
  by_cases hp : listStarts "[code]".data l
  · rw [if_pos hp] at h
    injection h with h2
    injection h2 with ha hb
    subst ha
    subst hb
    have h6 := listStarts_length hp
    have h7 : ("[code]".data).length = 6 := by decide
    have h8 : ((l.drop 6).dropWhile isSpaceChar).length ≤ (l.drop 6).length :=
      (List.dropWhile_suffix isSpaceChar).length_le
    have h9 : (l.drop 6).length = l.length - 6 := List.length_drop _ _
    simp only [List.length_nil]
    omega
  · rw [if_neg hp] at h
    exact Option.noConfusion h

theorem stepCodeClose_strict (l rep rest : List Char)
    (h : stepCodeClose l = some (rep, rest)) :
    rep.length + rest.length < l.length := by
  unfold stepCodeClose at h
  by_cases hp : listStarts "[/code]".data (l.dropWhile isSpaceChar)
  · rw [if_pos hp] at h
    injection h with h2
    injection h2 with ha hb
    subst ha
    subst hb
    have h6 := listStarts_length hp
    have h7 : ("[/code]".data).length = 7 := by decide
    have h8 : (l.dropWhile isSpaceChar).length ≤ l.length :=
      (List.dropWhile_suffix isSpaceChar).length_le
    have h9 : ((l.dropWhile isSpaceChar).drop 7).length
        = (l.dropWhile isSpaceChar).length - 7 := List.length_drop _ _
    simp only [List.length_nil]
    omega
  · rw [if_neg hp] at h
    exact Option.noConfusion h

theorem stepFenceOpen_strict (l rep rest : List Char)
    (h : stepFenceOpen l = some (rep, rest)) :
    rep.length + rest.length < l.length := by
  unfold stepFenceOpen at h
  by_cases hp1 : listStarts "```".data l
  · rw [if_pos hp1] at h
    by_cases hp2 : listStarts "\n\n".data
        (l.drop (3 + ((l.drop 3).takeWhile isWordChar).length))
    · rw [if_pos hp2] at h
      injection h with h2
      injection h2 with ha hb
      subst ha
      subst hb
      have h6 := listStarts_length hp2
      have h7 : ("\n\n".data).length = 2 := by decide
      have h9 : (l.drop (3 + ((l.drop 3).takeWhile isWordChar).length)).length
          = l.length - (3 + ((l.drop 3).takeWhile isWordChar).length) :=
        List.length_drop _ _
      have h10 : ((l.drop (3 + ((l.drop 3).takeWhile isWordChar).length)).drop 2).length
          = (l.drop (3 + ((l.drop 3).takeWhile isWordChar).length)).length - 2 :=
        List.length_drop _ _
      simp only [List.length_cons, List.length_append]
      simp only [List.length_cons, List.length_nil]
      omega
    · rw [if_neg hp2] at h
      exact Option.noConfusion h
  · rw [if_neg hp1] at h
    exact Option.noConfusion h

theorem stepFenceClose_strict (l rep rest : List Char)
    (h : stepFenceClose l = some (rep, rest)) :
    rep.length + rest.length < l.length := by
  unfold stepFenceClose at h
  by_cases hp : listStarts "\n\n```".data l
  · rw [if_pos hp] at h
    injection h with h2
    injection h2 with ha hb
    subst ha
    subst hb
    have h6 := listStarts_length hp
    have h7 : ("\n\n```".data).length = 5 := by decide
    have h9 : (l.drop 5).length = l.length - 5 := List.length_drop _ _
    simp only [List.length_cons, List.length_nil]
    omega
  · rw [if_neg hp] at h
    exact Option.noConfusion h

theorem scanSub_length_le (step : List Char → Option (List Char × List Char))
    (hstep : ∀ l rep rest, step l = some (rep, rest) → rep.length + rest.length < l.length) :
    ∀ fuel l, (scanSub step fuel l).length ≤ l.length := by
  intro fuel
  induction fuel with
  | zero => intro l; rw [scanSub]
  | succ f ih =>
    intro l
    cases l with
    | nil => rw [scanSub]
    | cons c cs =>
      rw [scanSub]
      rcases hs : step (c :: cs) with _ | ⟨rep, rest⟩
      · simp only [hs, List.length_cons]
        exact Nat.succ_le_succ (ih cs)
      · simp only [hs, List.length_append]
        have h1 := hstep _ _ _ hs
        have h2 := ih rest
        simp only [List.length_cons] at h1 ⊢
        omega

theorem scanSub_fix_or_shrink (step : List Char → Option (List Char × List Char))
    (hstep : ∀ l rep rest, step l = some (rep, rest) → rep.length + rest.length < l.length) :
    ∀ fuel l, scanSub step fuel l = l ∨ (scanSub step fuel l).length < l.length := by
  intro fuel
  induction fuel with
  | zero => intro l; exact Or.inl (by rw [scanSub])
  | succ f ih =>
    intro l
    cases l with
    | nil => exact Or.inl (by rw [scanSub])
    | cons c cs =>
      rw [scanSub]
      rcases hs : step (c :: cs) with _ | ⟨rep, rest⟩
      · simp only [hs]
        rcases ih cs with h | h
        · exact Or.inl (by rw [h])
        · right
          simp only [List.length_cons]
          omega
      · simp only [hs]
        right
        have h1 := hstep _ _ _ hs
        have h2 := scanSub_length_le step hstep f rest
        simp only [List.length_append, List.length_cons] at h1 ⊢
        omega

theorem runSub_le (step : List Char → Option (List Char × List Char))
    (hstep : ∀ l rep rest, step l = some (rep, rest) → rep.length + rest.length < l.length)
    (l : List Char) : (runSub step l).length ≤ l.length :=
  scanSub_length_le step hstep l.length l

theorem runSub_fix_or_shrink (step : List Char → Option (List Char × List Char))
    (hstep : ∀ l rep rest, step l = some (rep, rest) → rep.length + rest.length < l.length)
    (l : List Char) : runSub step l = l ∨ (runSub step l).length < l.length :=
  scanSub_fix_or_shrink step hstep l.length l

theorem comp_fix_or_shrink {f g : List Char → List Char}
    (hf : ∀ l, f l = l ∨ (f l).length < l.length)
    (hg : ∀ l, g l = l ∨ (g l).length < l.length)
    (hgle : ∀ l, (g l).length ≤ l.length) :
    ∀ l, g (f l) = l ∨ (g (f l)).length < l.length := by
  intro l
  rcases hf l with h | h
  · rw [h]
    exact hg l
  · right
    have h2 := hgle (f l)
    omega

/-- Counterexample for C1: the cleanup pass is not idempotent.  On
`[co[code]de]` one pass removes the inner `[code]` marker and the
remaining text reassembles to `[code]`, which a second pass removes. -/
theorem postprocess_not_idempotent :
    postProcess "[co[code]de]" = "[code]"
    ∧ postProcess (postProcess "[co[code]de]") = ""
    ∧ postProcess (postProcess "[co[code]de]") ≠ postProcess "[co[code]de]" :=
  ⟨by decide, by decide, by decide⟩

/-- C1 (corrected): a single application of the cleanup pass is not
idempotent in general; what holds is that each application either leaves
the text unchanged or strictly shortens it, so repeated application
still terminates at a fixed point ("safe to run repeatedly" only in that
weaker sense). -/
theorem postprocess_descending (s : String) :
    postProcess s = s ∨ (postProcess s).length < s.length := by
  have h1 := runSub_fix_or_shrink stepCodeOpen stepCodeOpen_strict
  have h2 := runSub_fix_or_shrink stepCodeClose stepCodeClose_strict
  have h3 := runSub_fix_or_shrink stepFenceOpen stepFenceOpen_strict
  have h4 := runSub_fix_or_shrink stepFenceClose stepFenceClose_strict
  have c1 := comp_fix_or_shrink h1 h2 (runSub_le stepCodeClose stepCodeClose_strict)
  have c2 := comp_fix_or_shrink c1 h3 (runSub_le stepFenceOpen stepFenceOpen_strict)
  have c3 := comp_fix_or_shrink c2 h4 (runSub_le stepFenceClose stepFenceClose_strict)
  rcases c3 s.data with h | h
  · left
    unfold postProcess
    rw [h]
  · right
    unfold postProcess
    exact h

/-- Witness for C7: the `.md` suffix at a query URL, and the cleaning
guarantee at the `_` produced from the space in `"a b"`. -/
theorem filename_generation_witness :
    (∃ stem : List Char, (generateFilename "https://example.com/a?q=1").data
      = stem ++ ['.', 'm', 'd'])
    ∧ (('_').isAlphanum = true ∨ ('_') = '_' ∨ ('_') = '-' ∨ ('_') = '.') :=
  ⟨(filename_generation "https://example.com/a?q=1" "a b").2.2.2.2.1,
   (filename_generation "https://example.com/a?q=1" "a b").2.2.2.2.2 '_' (by decide)⟩
